import Mathlib

/-!
Verification of the ssp ("banshee") streaming-pipeline application against its
design specification.

The embedding covers:
- the pipeline wiring and the shutdown coordinator task of src/main.rs;
- the configuration accessors of src/config.rs;
- the inter-stage message types and the Collector session-assembly state
  machine, which live in repository modules (data.rs, collector.rs,
  config/core.rs, config/endpoint.rs) referenced from src/main.rs and
  src/config.rs but not present under src/; those are modelled from the
  specification, as indicated on each definition.

Machine integers of the source are modelled as Nat; channel sends are modelled
as list emissions; the tokio task structure is modelled as pure functions from
input event lists to emitted message lists.
-/

namespace Ssp

/-! ## Logging levels (from the log crate, as used by src/config.rs) -/

/-- Log level filter, mirroring log::LevelFilter as consumed in
src/config.rs lines 51-60. -/
inductive LevelFilter where
  | off
  | error
  | warn
  | info
  | debug
  | trace
deriving DecidableEq

/-! ## Configuration data (config/core.rs and config/endpoint.rs are not under
src/, so their data shapes are modelled from the spec) -/

/-- Modelled from the spec: an Endpoint is one peer address from the list of
peer endpoints to connect to (spec section 6 configuration inputs; the file
config/endpoint.rs is not under src/). -/
structure Endpoint where
  host : String
  port : Nat
deriving DecidableEq

/-- Modelled from the spec: ConfigCore is the configuration state built from
the configuration file (config/core.rs is not under src/). Spec section 6
lists the configuration inputs consumed by the core: the peer endpoint list
and the inter-stage channel capacity. -/
structure ConfigCore where
  peers : List Endpoint
  chanCapacity : Nat
deriving DecidableEq

/-- The value returned by Config::peers (src/config.rs lines 45-48): it reads
the core under a read lock and returns a clone of the stored peer list. -/
def configPeersOf (c : ConfigCore) : List Endpoint :=
  c.peers

/-- Modelled from the spec: a write of a new core through the shared
RwLock-protected cell of Config (the field core: RwLock of ConfigCore,
src/config.rs lines 20-22; the periodic refresh task announced in the
src/config.rs module documentation is not under src/). The cell afterwards
holds the new core, and every holder of the shared Arc handle observes it. -/
def writeCore (_old new : ConfigCore) : ConfigCore :=
  new

/-- Arc clone (src/main.rs: cfg_inst.clone() passed to each stage): cloning a
shared handle yields a handle to the same allocation, here modelled by the
allocation identifier being preserved. -/
def arcClone (h : Nat) : Nat :=
  h

/-- The configuration handles received by the five stages in src/main.rs
lines 66-70: each stage receives cfg_inst.clone(), a clone of the one shared
handle h. -/
def mainStageHandles (h : Nat) : List Nat :=
  [arcClone h, arcClone h, arcClone h, arcClone h, arcClone h]

/-- Formalisation of the configuration-delivery claim of spec section 9: each
stage observes an immutable snapshot, so an observation through a stage's
handle is unaffected by a later write to the shared configuration core. -/
def snapshotSemantics : Prop :=
  ∀ c new : ConfigCore, configPeersOf (writeCore c new) = configPeersOf c

/-- Lock operations on the RwLock of Config. -/
inductive LockOp where
  | read
  | write
deriving DecidableEq

/-- The lock acquisitions performed by Config::peers (src/config.rs line 46:
self.core.read().unwrap()): a single read lock, no write lock. -/
def peersLockOps : List LockOp :=
  [LockOp.read]

/-- Memory model for one call of Config::peers: the list stored in the
configuration core behind the RwLock, and the list value held by the caller
(none before the call returns). -/
structure PeersCallMem where
  coreList : List Endpoint
  callerList : Option (List Endpoint)
deriving DecidableEq

/-- Config::peers (src/config.rs lines 45-48): the caller receives a clone
(a fresh copy) of the stored list; the stored list is untouched. -/
def peersCall (m : PeersCallMem) : PeersCallMem :=
  { m with callerList := some m.coreList }

/-- The caller mutating its own returned list in place: only the caller's
copy changes, since Config::peers returned a clone, not a reference. -/
def callerMutate (f : List Endpoint → List Endpoint) (m : PeersCallMem) : PeersCallMem :=
  { m with callerList := m.callerList.map f }

/-- Config::log_lvl_console (src/config.rs lines 51-54): returns
LevelFilter::Info unconditionally; the configuration state is not consulted
(the body is a todo plus the constant). -/
def log_lvl_console (_c : ConfigCore) : LevelFilter :=
  LevelFilter.info

/-- Config::log_lvl_file (src/config.rs lines 57-60): returns
LevelFilter::Debug unconditionally; the configuration state is not consulted. -/
def log_lvl_file (_c : ConfigCore) : LevelFilter :=
  LevelFilter.debug

/-- The clap argument matcher built by init_args (src/config.rs lines 64-75):
the value of the config argument given the command line. The argument has
default_value set, so value_of yields the supplied value when --config was
passed and the default otherwise. -/
def argValueOfConfig (cmdline : Option String) : Option String :=
  match cmdline with
  | some v => some v
  | none => some "banshee.ini"

/-- The configuration file pathname computed by Config::new
(src/config.rs line 33): args.value_of of config, with unwrap_or falling back
to the same default. -/
def configPathname (cmdline : Option String) : String :=
  (argValueOfConfig cmdline).getD "banshee.ini"

/-! ## Inter-stage message types (data.rs is not under src/; the two-variant
shapes are modelled from spec section 3 and from the constructors
data::Fragment::Stop, data::Session::Stop, data::FinalSample::Stop,
data::StoredResult::Stop used in src/main.rs lines 79-82) -/

/-- Boundary flag of a Fragment (spec section 3): session start, continuation,
or end. -/
inductive Boundary where
  | start
  | cont
  | fin
deriving DecidableEq

/-- Modelled from the spec: the payload of a data Fragment (spec section 3):
sequence marker, boundary flag, and an opaque payload identifier standing for
the raw payload bytes. -/
structure FragData where
  seq : Nat
  boundary : Boundary
  payload : Nat
deriving DecidableEq

/-- Modelled from the spec: the payload of a data Session (spec section 3):
the ordered sequence of folded payload segments and the validity tag
(valid versus incomplete completion). -/
structure SessData where
  segs : List FragData
  valid : Bool
deriving DecidableEq

/-- Modelled from the spec: the payload of a FinalSample (spec section 3):
originating session key and sample index. -/
structure SampleData where
  sessionKey : Nat
  sampleIndex : Nat
deriving DecidableEq

/-- Modelled from the spec: the payload of a StoredResult (spec section 3):
originating sample identity and status. -/
structure ResultData where
  sampleKey : Nat
  status : Nat
deriving DecidableEq

/-- Modelled from the spec: data::Fragment, carried on the input-to-collector
channel, with exactly a data variant and a Stop variant (spec section 3;
the Stop constructor appears in src/main.rs line 79). -/
inductive Fragment where
  | data (p : FragData)
  | stop
deriving DecidableEq

/-- Modelled from the spec: data::Session, carried on the
collector-to-processor channel (Stop constructor in src/main.rs line 80). -/
inductive Session where
  | data (p : SessData)
  | stop
deriving DecidableEq

/-- Modelled from the spec: data::FinalSample, carried on the
processor-to-inference channel (Stop constructor in src/main.rs line 81). -/
inductive FinalSample where
  | data (p : SampleData)
  | stop
deriving DecidableEq

/-- Modelled from the spec: data::StoredResult, carried on the
inference-to-output channel (Stop constructor in src/main.rs line 82). -/
inductive StoredResult where
  | data (p : ResultData)
  | stop
deriving DecidableEq

/-! ## Pipeline wiring (src/main.rs lines 51-70) -/

/-- The tasks of the application: the five worker stages launched in
src/main.rs lines 66-70 and the shutdown coordinator task spawned in
line 74. -/
inductive Stage where
  | input
  | collector
  | processor
  | inference
  | output
  | coordinator
deriving DecidableEq

/-- Identifier of each inter-stage channel created in src/main.rs
lines 57-63. -/
inductive ChanId where
  | frag
  | sess
  | smpl
  | rslt
deriving DecidableEq

/-- One inter-stage channel as created and wired in src/main.rs: its bounded
capacity, the stage that holds its sender clone for data flow, the stage
that receives its consumer end, and whether the shutdown coordinator task
also holds a sender for it (it holds the original tx moved into the spawned
closure, src/main.rs lines 74-82). -/
structure ChannelDecl where
  id : ChanId
  capacity : Nat
  bounded : Bool
  producer : Stage
  consumer : Stage
  coordinatorHoldsSender : Bool
deriving DecidableEq

/-- The four inter-stage channels of src/main.rs lines 57-63, with the wiring
of lines 66-70: tx_frag clone to input, rx_frag to collector; tx_sess clone to
collector, rx_sess to processor; tx_smpl clone to processor, rx_smpl to
inference; tx_rslt clone to inference, rx_rslt to output. All four are tokio
bounded mpsc channels of capacity 100, and the coordinator keeps the original
sender of each. -/
def mainChannels : List ChannelDecl :=
  [ { id := ChanId.frag, capacity := 100, bounded := true,
      producer := Stage.input, consumer := Stage.collector,
      coordinatorHoldsSender := true },
    { id := ChanId.sess, capacity := 100, bounded := true,
      producer := Stage.collector, consumer := Stage.processor,
      coordinatorHoldsSender := true },
    { id := ChanId.smpl, capacity := 100, bounded := true,
      producer := Stage.processor, consumer := Stage.inference,
      coordinatorHoldsSender := true },
    { id := ChanId.rslt, capacity := 100, bounded := true,
      producer := Stage.inference, consumer := Stage.output,
      coordinatorHoldsSender := true } ]

/-- The dedicated oneshot stop channel of src/main.rs line 53: its sender
tx_stop is kept by the coordinator task (line 78) and its receiver rx_stop
is handed to the input stage (line 66). -/
structure OneshotDecl where
  sender : Stage
  receiver : Stage
deriving DecidableEq

/-- The oneshot wiring of src/main.rs lines 53, 66 and 78. -/
def mainOneshot : OneshotDecl :=
  { sender := Stage.coordinator, receiver := Stage.input }

/-- The capacity argument passed to channel(...) for each inter-stage channel
in src/main.rs lines 57-63: the literal 100, regardless of the configuration
instance held in cfg_inst. -/
def mainChanCapacity (_cfg : ConfigCore) (_id : ChanId) : Nat :=
  100

/-- Formalisation of the claim that the channel capacities are configuration
inputs: the capacity used at channel creation equals the configured capacity,
for every configuration. -/
def capacityFromConfig : Prop :=
  ∀ (cfg : ConfigCore) (id : ChanId), mainChanCapacity cfg id = cfg.chanCapacity

/-! ## Shutdown coordinator (src/main.rs lines 74-85) -/

/-- One action of the shutdown coordinator task: the oneshot signal to the
input stage, or a send into one of the four inter-stage channels. -/
inductive CoordAction where
  | inputSignal
  | sendFrag (m : Fragment)
  | sendSess (m : Session)
  | sendSmpl (m : FinalSample)
  | sendRslt (m : StoredResult)
deriving DecidableEq

/-- The coordinator task body of src/main.rs lines 74-85: it iterates over
the stream of operator termination triggers; on the first trigger it sends
the oneshot stop to input, then one Stop marker into each inter-stage channel
in pipeline order, and then breaks out of the loop, so any further triggers
are never read. The send results are discarded (let _ =), so no send failure
panics the task. -/
def handlerLoop : List Unit → List CoordAction
  | [] => []
  | _ :: _ =>
    [ CoordAction.inputSignal,
      CoordAction.sendFrag Fragment.stop,
      CoordAction.sendSess Session.stop,
      CoordAction.sendSmpl FinalSample.stop,
      CoordAction.sendRslt StoredResult.stop ]

/-! ## Collector session assembly (collector.rs is not under src/; the state
machine is modelled from spec sections 4.2 and 3) -/

/-- Modelled from the spec: the assembly state the Collector keeps for one
active session key (spec section 4.2): the sequence marker of the start
fragment, the next expected sequence marker, the segments folded in so far
in order, and the bounded reordering buffer of fragments that arrived ahead
of the expected position, kept sorted by sequence marker. -/
structure Asm where
  first : Nat
  next : Nat
  segs : List FragData
  pending : List FragData
deriving DecidableEq

/-- Modelled from the spec: the fresh assembly state created on a
start-boundary fragment for an unseen key (spec section 4.2): its payload is
appended and the next expected marker follows it. -/
def newAsm (f : FragData) : Asm :=
  { first := f.seq, next := f.seq + 1, segs := [f], pending := [] }

/-- Insertion into the reordering buffer, keeping it sorted by sequence
marker. -/
def insertPending (f : FragData) : List FragData → List FragData
  | [] => [f]
  | g :: rest =>
    if f.seq ≤ g.seq then f :: g :: rest else g :: insertPending f rest

/-- Reinsertion from the reordering buffer (spec section 4.2: buffered
fragments are reinserted in order once the expected position reaches them):
repeatedly folds the least buffered fragment while it is exactly the next
expected one. The fuel is the buffer length, which bounds the number of
possible reinsertions. -/
def drainFuel : Nat → Asm → Asm
  | 0, a => a
  | n + 1, a =>
    match a.pending with
    | [] => a
    | p :: rest =>
      if p.seq = a.next then
        drainFuel n { a with next := a.next + 1, segs := a.segs ++ [p], pending := rest }
      else a

/-- Fold every buffered fragment that has become the expected next one. -/
def drain (a : Asm) : Asm :=
  drainFuel a.pending.length a

/-- Modelled from the spec: processing one data fragment against an active
assembly (spec section 4.2). Returns the new state and whether the fragment
fell past the bounded reordering window, which forces the session to be
marked incomplete and evicted. A fragment at the expected position is folded
and the buffer drained; a fragment whose marker was already folded or is
already buffered is a duplicate and is discarded; a fragment ahead of the
expected position but within the window w is buffered. -/
def applyFrag (w : Nat) (a : Asm) (f : FragData) : Asm × Bool :=
  if f.seq = a.next then
    (drain { a with next := a.next + 1, segs := a.segs ++ [f] }, false)
  else if f.seq < a.next || a.pending.any (fun g => g.seq = f.seq) then
    (a, false)
  else if f.seq ≤ a.next + w then
    ({ a with pending := insertPending f a.pending }, false)
  else
    (a, true)

/-- Modelled from the spec: finalising an assembly into the emitted Session
(spec sections 4.2 and 3): the folded segments in order; the session is valid
only when no buffered fragment was left unplaced, otherwise it is marked
incomplete rather than valid. -/
def finalizeAsm (a : Asm) : SessData :=
  { segs := a.segs, valid := a.pending.isEmpty }

/-- Modelled from the spec: one step of the Collector for one session key
(spec section 4.2). With no active state, only a start-boundary fragment
creates one. With an active state, the fragment is applied; past-window
arrival marks the session incomplete and evicts it (emitting it rather than
losing it, per the spec failure policy); an end-boundary fragment finalises,
emits and frees the state. -/
def stepMsg (w : Nat) (st : Option Asm) (f : FragData) : Option Asm × List SessData :=
  match st with
  | none =>
    if f.boundary = Boundary.start then (some (newAsm f), []) else (none, [])
  | some a =>
    match applyFrag w a f with
    | (a2, true) => (none, [{ segs := a2.segs, valid := false }])
    | (a2, false) =>
      if f.boundary = Boundary.fin then (none, [finalizeAsm a2])
      else (some a2, [])

/-- Modelled from the spec: the Collector consuming the fragments of one
session key in arrival order, collecting every Session it emits. -/
def runKey (w : Nat) (st : Option Asm) : List FragData → List SessData
  | [] => []
  | f :: rest =>
    (stepMsg w st f).2 ++ runKey w (stepMsg w st f).1 rest

/-- Modelled from the spec: the Collector task loop at the message level
(spec sections 4.2 and 4.6): data fragments drive the assembly machine;
on the Stop marker the task forwards its own Stop marker downstream and
exits; when the channel yields no further message the task emits nothing
further. -/
def collectorRun (w : Nat) (st : Option Asm) : List Fragment → List Session
  | [] => []
  | Fragment.stop :: _ => [Session.stop]
  | Fragment.data f :: rest =>
    ((stepMsg w st f).2.map Session.data) ++ collectorRun w (stepMsg w st f).1 rest

/-! ## Proof infrastructure for the collector -/

/-- Invariant of an active assembly state: the folded segments carry exactly
the contiguous range of sequence markers from the start marker up to the next
expected one. -/
def AsmInv (a : Asm) : Prop :=
  a.segs.map FragData.seq = List.range' a.first (a.next - a.first) ∧ a.first ≤ a.next

/-- Invariant lifted to the optional collector state. -/
def OptInv (st : Option Asm) : Prop :=
  ∀ a, st = some a → AsmInv a

/-- All fragments held inside the collector state, folded or buffered. -/
def asmContents : Option Asm → List FragData
  | none => []
  | some a => a.segs ++ a.pending

/-- The sequence markers currently accounted for by an assembly: those of the
folded segments and those of the buffered fragments. -/
def coverList (a : Asm) : List Nat :=
  a.segs.map FragData.seq ++ a.pending.map FragData.seq

/-- A fragment stream carrying exactly one session transmission, the shape
described by the spec lifecycle in section 3: a start-boundary fragment
first, continuation fragments in between, one end-boundary fragment last,
and the start fragment carrying the least sequence marker. -/
def SingleSession (fs : List FragData) : Prop :=
  ∃ f0 mid fl, fs = f0 :: (mid ++ [fl])
    ∧ f0.boundary = Boundary.start
    ∧ fl.boundary = Boundary.fin
    ∧ (∀ f ∈ mid, f.boundary = Boundary.cont)
    ∧ (∀ f ∈ fs, f0.seq ≤ f.seq)

/-! ## Helper lemmas -/

theorem chain_succ_range' (n s : Nat) :
    List.Chain' (fun x y => y = x + 1) (List.range' s n) := by
  induction n generalizing s with
  | zero => simp
  | succ m ih =>
    rw [List.range'_succ]
    cases m with
    | zero => simp
    | succ k =>
      rw [List.range'_succ]
      refine List.chain'_cons.2 ⟨rfl, ?_⟩
      rw [← List.range'_succ]
      exact ih (s + 1)

theorem collectorRun_stop_only_from_stop (w : Nat) (st : Option Asm)
    (msgs : List Fragment) :
    Fragment.stop ∈ msgs ∨ Session.stop ∉ collectorRun w st msgs := by
  induction msgs generalizing st with
  | nil => exact Or.inr (by simp [collectorRun])
  | cons m rest ih =>
    cases m with
    | stop => exact Or.inl (List.mem_cons_self _ _)
    | data f =>
      rcases ih (stepMsg w st f).1 with h | h
      · exact Or.inl (List.mem_cons_of_mem _ h)
      · refine Or.inr ?_
        intro hmem
        simp only [collectorRun] at hmem
        rcases List.mem_append.1 hmem with hl | hr
        · rcases List.mem_map.1 hl with ⟨p, _, hp⟩
          exact Session.noConfusion hp
        · exact h hr

theorem fold_seq_range {a : Asm} (h : AsmInv a) (f : FragData) (hf : f.seq = a.next) :
    (a.segs ++ [f]).map FragData.seq = List.range' a.first (a.next + 1 - a.first)
    ∧ a.first ≤ a.next + 1 := by
  obtain ⟨hm, hle⟩ := h
  constructor
  · rw [List.map_append, hm]
    have h1 : a.next + 1 - a.first = (a.next - a.first) + 1 := by omega
    have h2 : a.first + (a.next - a.first) = a.next := by omega
    rw [h1, List.range'_1_concat, h2]
    simp [hf]
  · omega

theorem drainFuel_inv (n : Nat) : ∀ (a : Asm), AsmInv a → AsmInv (drainFuel n a) := by
  induction n with
  | zero => exact fun a h => h
  | succ m ih =>
    intro a h
    rw [drainFuel]
    split
    · exact h
    · rename_i p rest hp
      split
      · rename_i hs
        refine ih _ ?_
        have hfold := fold_seq_range h p hs
        simp only [AsmInv]
        exact ⟨hfold.1, hfold.2⟩
      · exact h

theorem applyFrag_inv (w : Nat) (a : Asm) (f : FragData) (h : AsmInv a) :
    AsmInv (applyFrag w a f).1 := by
  rw [applyFrag]
  split
  · rename_i hs
    dsimp only
    refine drainFuel_inv _ _ ?_
    have hfold := fold_seq_range h f hs
    simp only [AsmInv]
    exact ⟨hfold.1, hfold.2⟩
  · split
    · exact h
    · split
      · simp only [AsmInv] at h ⊢
        exact h
      · exact h

theorem insertPending_sub (f : FragData) :
    ∀ (l : List FragData), insertPending f l ⊆ f :: l := by
  intro l
  induction l with
  | nil => simp [insertPending]
  | cons g rest ih =>
    rw [insertPending]
    split
    · exact List.Subset.refl _
    · intro x hx
      rcases List.mem_cons.1 hx with hg | hmem
      · simp [hg]
      · rcases List.mem_cons.1 (ih hmem) with hf | hr
        · simp [hf]
        · simp [hr]

theorem drainFuel_contents (n : Nat) : ∀ (a : Asm),
    (drainFuel n a).segs ++ (drainFuel n a).pending ⊆ a.segs ++ a.pending := by
  induction n with
  | zero => exact fun a => List.Subset.refl _
  | succ m ih =>
    intro a
    rw [drainFuel]
    split
    · exact List.Subset.refl _
    · rename_i p rest hp
      split
      · intro x hx
        have hx2 := ih { a with next := a.next + 1, segs := a.segs ++ [p], pending := rest } hx
        rw [hp]
        simp only [List.mem_append, List.mem_cons, List.mem_singleton] at hx2 ⊢
        tauto
      · exact List.Subset.refl _

theorem applyFrag_contents (w : Nat) (a : Asm) (f : FragData) :
    (applyFrag w a f).1.segs ++ (applyFrag w a f).1.pending
      ⊆ f :: (a.segs ++ a.pending) := by
  rw [applyFrag]
  split
  · dsimp only
    intro x hx
    have hx2 := drainFuel_contents _ _ hx
    simp only [List.mem_append, List.mem_cons, List.mem_singleton] at hx2 ⊢
    tauto
  · split
    · exact fun x hx => List.mem_cons_of_mem _ hx
    · split
      · intro x hx
        simp only [List.mem_append] at hx
        rcases hx with h1 | h2
        · exact List.mem_cons_of_mem _ (List.mem_append.2 (Or.inl h1))
        · rcases List.mem_cons.1 (insertPending_sub f a.pending h2) with hf | hr
          · simp [hf]
          · exact List.mem_cons_of_mem _ (List.mem_append.2 (Or.inr hr))
      · exact fun x hx => List.mem_cons_of_mem _ hx

theorem stepMsg_inv (w : Nat) (st : Option Asm) (f : FragData) (h : OptInv st) :
    OptInv (stepMsg w st f).1 := by
  cases st with
  | none =>
    rw [stepMsg]
    split
    · intro a ha
      cases ha
      simp only [AsmInv, newAsm]
      constructor
      · simp
      · omega
    · intro a ha
      cases ha
  | some a =>
    have ha : AsmInv a := h a rfl
    rw [stepMsg]
    rcases happ : applyFrag w a f with ⟨a2, evict⟩
    have ha2 : AsmInv a2 := by
      have := applyFrag_inv w a f ha
      rw [happ] at this
      exact this
    cases evict with
    | true => intro b hb; cases hb
    | false =>
      dsimp only
      split
      · intro b hb; cases hb
      · intro b hb
        cases hb
        exact ha2

theorem stepMsg_emit (w : Nat) (st : Option Asm) (f : FragData) (h : OptInv st) :
    ∀ s ∈ (stepMsg w st f).2,
      ∃ k n, s.segs.map FragData.seq = List.range' k n := by
  cases st with
  | none =>
    rw [stepMsg]
    split
    · intro s hs
      cases hs
    · intro s hs
      cases hs
  | some a =>
    have ha : AsmInv a := h a rfl
    rw [stepMsg]
    rcases happ : applyFrag w a f with ⟨a2, evict⟩
    have ha2 : AsmInv a2 := by
      have := applyFrag_inv w a f ha
      rw [happ] at this
      exact this
    cases evict with
    | true =>
      intro s hs
      rcases List.mem_singleton.1 hs with rfl
      exact ⟨a2.first, a2.next - a2.first, ha2.1⟩
    | false =>
      dsimp only
      split
      · intro s hs
        rcases List.mem_singleton.1 hs with rfl
        exact ⟨a2.first, a2.next - a2.first, ha2.1⟩
      · intro s hs
        cases hs

theorem stepMsg_contents (w : Nat) (st : Option Asm) (f : FragData) :
    asmContents (stepMsg w st f).1 ⊆ f :: asmContents st
    ∧ ∀ s ∈ (stepMsg w st f).2, ∀ g ∈ s.segs, g ∈ f :: asmContents st := by
  cases st with
  | none =>
    rw [stepMsg]
    split
    · constructor
      · intro x hx
        simp only [asmContents, newAsm] at hx
        simp at hx
        simp [hx]
      · intro s hs
        cases hs
    · constructor
      · intro x hx
        simp [asmContents] at hx
      · intro s hs
        cases hs
  | some a =>
    rw [stepMsg]
    rcases happ : applyFrag w a f with ⟨a2, evict⟩
    have hsub : a2.segs ++ a2.pending ⊆ f :: (a.segs ++ a.pending) := by
      have := applyFrag_contents w a f
      rw [happ] at this
      exact this
    cases evict with
    | true =>
      constructor
      · intro x hx
        simp [asmContents] at hx
      · intro s hs
        rcases List.mem_singleton.1 hs with rfl
        intro g hg
        exact hsub (List.mem_append.2 (Or.inl hg))
    | false =>
      dsimp only
      split
      · constructor
        · intro x hx
          simp [asmContents] at hx
        · intro s hs
          rcases List.mem_singleton.1 hs with rfl
          intro g hg
          simp only [finalizeAsm] at hg
          exact hsub (List.mem_append.2 (Or.inl hg))
      · constructor
        · intro x hx
          simp only [asmContents] at hx
          exact hsub hx
        · intro s hs
          cases hs

theorem runKey_emit (w : Nat) (fs : List FragData) : ∀ (st : Option Asm), OptInv st →
    ∀ sess ∈ runKey w st fs,
      (∃ k n, sess.segs.map FragData.seq = List.range' k n)
      ∧ ∀ g ∈ sess.segs, g ∈ fs ∨ g ∈ asmContents st := by
  induction fs with
  | nil =>
    intro st _ sess hm
    simp [runKey] at hm
  | cons f rest ih =>
    intro st hst sess hm
    simp only [runKey] at hm
    rcases List.mem_append.1 hm with hl | hr
    · refine ⟨stepMsg_emit w st f hst sess hl, ?_⟩
      intro g hg
      have hmem := (stepMsg_contents w st f).2 sess hl g hg
      rcases List.mem_cons.1 hmem with h1 | h2
      · exact Or.inl (by simp [h1])
      · exact Or.inr h2
    · have hres := ih (stepMsg w st f).1 (stepMsg_inv w st f hst) sess hr
      refine ⟨hres.1, ?_⟩
      intro g hg
      rcases hres.2 g hg with h1 | h2
      · exact Or.inl (List.mem_cons_of_mem _ h1)
      · rcases List.mem_cons.1 ((stepMsg_contents w st f).1 h2) with h3 | h4
        · exact Or.inl (by simp [h3])
        · exact Or.inr h4

theorem newAsm_inv (f : FragData) : AsmInv (newAsm f) := by
  simp only [AsmInv, newAsm]
  constructor
  · have h1 : f.seq + 1 - f.seq = 1 := by omega
    rw [h1]
    simp
  · omega

theorem stepMsg_start (w : Nat) (f : FragData) (hb : f.boundary = Boundary.start) :
    stepMsg w none f = (some (newAsm f), []) := by
  simp only [stepMsg]
  rw [if_pos hb]

theorem stepMsg_skip (w : Nat) (f : FragData) (hb : ¬ f.boundary = Boundary.start) :
    stepMsg w none f = (none, []) := by
  simp only [stepMsg]
  rw [if_neg hb]

theorem stepMsg_evict (w : Nat) (a : Asm) (f : FragData) (a2 : Asm)
    (happ : applyFrag w a f = (a2, true)) :
    stepMsg w (some a) f = (none, [{ segs := a2.segs, valid := false }]) := by
  simp only [stepMsg, happ]

theorem stepMsg_fin (w : Nat) (a : Asm) (f : FragData) (a2 : Asm)
    (happ : applyFrag w a f = (a2, false)) (hb : f.boundary = Boundary.fin) :
    stepMsg w (some a) f = (none, [finalizeAsm a2]) := by
  simp only [stepMsg, happ]
  rw [if_pos hb]

theorem stepMsg_go (w : Nat) (a : Asm) (f : FragData) (a2 : Asm)
    (happ : applyFrag w a f = (a2, false)) (hb : ¬ f.boundary = Boundary.fin) :
    stepMsg w (some a) f = (some a2, []) := by
  simp only [stepMsg, happ]
  rw [if_neg hb]

theorem runKey_none_no_start (w : Nat) : ∀ (l : List FragData),
    (∀ f ∈ l, ¬ f.boundary = Boundary.start) → runKey w none l = [] := by
  intro l
  induction l with
  | nil => intro _; rfl
  | cons f rest ih =>
    intro h
    simp only [runKey, stepMsg_skip w f (h f (List.mem_cons_self _ _))]
    simp only [List.nil_append]
    exact ih (fun g hg => h g (List.mem_cons_of_mem _ hg))

theorem insertPending_sup (f : FragData) :
    ∀ (l : List FragData), f :: l ⊆ insertPending f l := by
  intro l
  induction l with
  | nil => simp [insertPending]
  | cons g rest ih =>
    rw [insertPending]
    split
    · exact List.Subset.refl _
    · intro x hx
      rcases List.mem_cons.1 hx with hf | hmem
      · subst hf
        exact List.mem_cons_of_mem _ (ih (List.mem_cons_self _ _))
      · rcases List.mem_cons.1 hmem with hg | hr
        · simp [hg]
        · exact List.mem_cons_of_mem _ (ih (List.mem_cons_of_mem _ hr))

theorem drainFuel_contents_sup (n : Nat) : ∀ (a : Asm),
    a.segs ++ a.pending ⊆ (drainFuel n a).segs ++ (drainFuel n a).pending := by
  induction n with
  | zero => exact fun a => List.Subset.refl _
  | succ m ih =>
    intro a
    rw [drainFuel]
    split
    · exact List.Subset.refl _
    · rename_i p rest hp
      split
      · intro x hx
        refine ih { a with next := a.next + 1, segs := a.segs ++ [p], pending := rest } ?_
        rw [hp] at hx
        simp only [List.mem_append, List.mem_cons, List.mem_singleton] at hx ⊢
        tauto
      · exact List.Subset.refl _

theorem drainFuel_first (n : Nat) : ∀ (a : Asm), (drainFuel n a).first = a.first := by
  induction n with
  | zero => intro a; rfl
  | succ m ih =>
    intro a
    rw [drainFuel]
    split
    · rfl
    · split
      · rw [ih]
      · rfl

theorem applyFrag_first (w : Nat) (a : Asm) (f : FragData) :
    (applyFrag w a f).1.first = a.first := by
  rw [applyFrag]
  split
  · simp only [drain]
    exact drainFuel_first _ _
  · split
    · rfl
    · split
      · rfl
      · rfl

theorem coverList_iff (b : Asm) (x : Nat) :
    x ∈ coverList b ↔ ∃ g ∈ b.segs ++ b.pending, g.seq = x := by
  constructor
  · intro h
    rcases List.mem_append.1 h with h1 | h1
    · rcases List.mem_map.1 h1 with ⟨g, hg, hx⟩
      exact ⟨g, List.mem_append.2 (Or.inl hg), hx⟩
    · rcases List.mem_map.1 h1 with ⟨g, hg, hx⟩
      exact ⟨g, List.mem_append.2 (Or.inr hg), hx⟩
  · rintro ⟨g, hg, hx⟩
    rcases List.mem_append.1 hg with h1 | h1
    · exact List.mem_append.2 (Or.inl (List.mem_map.2 ⟨g, h1, hx⟩))
    · exact List.mem_append.2 (Or.inr (List.mem_map.2 ⟨g, h1, hx⟩))

theorem applyFrag_cover (w : Nat) (a : Asm) (f : FragData) (a2 : Asm) (hInv : AsmInv a)
    (hge : a.first ≤ f.seq) (happ : applyFrag w a f = (a2, false)) :
    ∀ x, (x ∈ coverList a ∨ x = f.seq) → x ∈ coverList a2 := by
  rw [applyFrag] at happ
  split at happ
  · rename_i hs
    injection happ with h1 h2
    subst h1
    intro x hx
    rw [coverList_iff]
    simp only [drain]
    have hsup := drainFuel_contents_sup
      ({ a with next := a.next + 1, segs := a.segs ++ [f] }).pending.length
      { a with next := a.next + 1, segs := a.segs ++ [f] }
    rcases hx with hc | hc
    · rcases (coverList_iff a x).1 hc with ⟨g, hg, hgx⟩
      refine ⟨g, hsup ?_, hgx⟩
      simp only [List.mem_append, List.mem_singleton] at hg ⊢
      tauto
    · refine ⟨f, hsup ?_, hc.symm⟩
      simp
  · split at happ
    · rename_i hdup
      injection happ with h1 h2
      subst h1
      intro x hx
      rcases hx with hc | hc
      · exact hc
      · subst hc
        simp only [Bool.or_eq_true, decide_eq_true_eq, List.any_eq_true] at hdup
        rcases hdup with hlt | ⟨g, hg, hgx⟩
        · obtain ⟨hmap, hle⟩ := hInv
          refine List.mem_append.2 (Or.inl ?_)
          rw [hmap, List.mem_range'_1]
          omega
        · refine List.mem_append.2 (Or.inr (List.mem_map.2 ⟨g, hg, hgx⟩))
    · split at happ
      · injection happ with h1 h2
        subst h1
        intro x hx
        rcases hx with hc | hc
        · rcases List.mem_append.1 hc with h1 | h1
          · exact List.mem_append.2 (Or.inl h1)
          · rcases List.mem_map.1 h1 with ⟨g, hg, hgx⟩
            refine List.mem_append.2 (Or.inr (List.mem_map.2
              ⟨g, insertPending_sup f a.pending (List.mem_cons_of_mem _ hg), hgx⟩))
        · subst hc
          refine List.mem_append.2 (Or.inr (List.mem_map.2
            ⟨f, insertPending_sup f a.pending (List.mem_cons_self _ _), rfl⟩))
      · injection happ with h1 h2
        exact absurd h2 (by decide)

theorem runKey_valid_cover (w : Nat) (fl : FragData) (hfin : fl.boundary = Boundary.fin) :
    ∀ (mid : List FragData) (a : Asm),
      AsmInv a →
      (∀ f ∈ mid, f.boundary = Boundary.cont) →
      (∀ f ∈ mid, a.first ≤ f.seq) →
      a.first ≤ fl.seq →
      ∀ sess ∈ runKey w (some a) (mid ++ [fl]),
        sess.valid = true →
        ∀ x, (x ∈ coverList a ∨ x ∈ mid.map FragData.seq ∨ x = fl.seq) →
          x ∈ sess.segs.map FragData.seq := by
  intro mid
  induction mid with
  | nil =>
    intro a hInv _ _ hfl sess hm hv x hx
    simp only [List.nil_append, runKey, List.append_nil] at hm
    rcases happ : applyFrag w a fl with ⟨a2, evict⟩
    cases evict with
    | true =>
      rw [stepMsg_evict w a fl a2 happ] at hm
      simp only [List.mem_singleton] at hm
      subst hm
      exact absurd hv (by simp)
    | false =>
      rw [stepMsg_fin w a fl a2 happ hfin] at hm
      simp only [List.mem_singleton] at hm
      subst hm
      simp only [finalizeAsm] at hv ⊢
      cases hp : a2.pending with
      | cons p r =>
        rw [hp] at hv
        simp at hv
      | nil =>
        have hev : (applyFrag w a fl).2 = false := by rw [happ]
        have hx2 : x ∈ coverList a ∨ x = fl.seq := by
          rcases hx with h1 | h1 | h1
          · exact Or.inl h1
          · simp at h1
          · exact Or.inr h1
        have hcov := applyFrag_cover w a fl a2 hInv hfl happ x hx2
        simp only [coverList, hp, List.map_nil, List.append_nil] at hcov
        exact hcov
  | cons m mid2 ih =>
    intro a hInv hcont hge hfl sess hm hv x hx
    have hmB : m.boundary = Boundary.cont := hcont m (List.mem_cons_self _ _)
    rcases happ : applyFrag w a m with ⟨a2, evict⟩
    simp only [List.cons_append, runKey] at hm
    cases evict with
    | true =>
      rw [stepMsg_evict w a m a2 happ] at hm
      have hnone : runKey w none (mid2 ++ [fl]) = [] := by
        refine runKey_none_no_start w _ ?_
        intro g hg
        rcases List.mem_append.1 hg with h1 | h1
        · have := hcont g (List.mem_cons_of_mem _ h1)
          rw [this]
          decide
        · rcases List.mem_singleton.1 h1 with rfl
          rw [hfin]
          decide
      simp only [List.append_eq, hnone, List.append_nil, List.mem_singleton] at hm
      subst hm
      exact absurd hv (by simp)
    | false =>
      have hne : ¬ m.boundary = Boundary.fin := by
        rw [hmB]
        decide
      rw [stepMsg_go w a m a2 happ hne] at hm
      simp only [List.nil_append] at hm
      have hInv2 : AsmInv a2 := by
        have h2 := applyFrag_inv w a m hInv
        rw [happ] at h2
        exact h2
      have hfst : a2.first = a.first := by
        have h2 := applyFrag_first w a m
        rw [happ] at h2
        exact h2
      have hgem : a.first ≤ m.seq := hge m (List.mem_cons_self _ _)
      refine ih a2 hInv2
        (fun f hf => hcont f (List.mem_cons_of_mem _ hf))
        (fun f hf => by rw [hfst]; exact hge f (List.mem_cons_of_mem _ hf))
        (by rw [hfst]; exact hfl) sess hm hv x ?_
      rcases hx with h1 | h1 | h1
      · exact Or.inl (applyFrag_cover w a m a2 hInv hgem happ x (Or.inl h1))
      · rcases List.mem_map.1 h1 with ⟨g, hg, hgx⟩
        rcases List.mem_cons.1 hg with h2 | h2
        · rw [h2] at hgx
          exact Or.inl (applyFrag_cover w a m a2 hInv hgem happ x (Or.inr hgx.symm))
        · exact Or.inr (Or.inl (List.mem_map.2 ⟨g, h2, hgx⟩))
      · exact Or.inr (Or.inr h1)

/-! ## Claim theorems -/

/-- C1: when the operator termination trigger fires, the shutdown coordinator
task of src/main.rs lines 74-85, exactly once, first signals the input stage
through the dedicated oneshot channel and then sends exactly one Stop marker
into each of the four inter-stage channels in pipeline order: Fragment
channel, then Session channel, then FinalSample channel, then StoredResult
channel. The emitted action sequence equals that exact five-element
sequence. -/
theorem shutdown_signal_order (sigs : List Unit) (h : sigs ≠ []) :
    handlerLoop sigs =
      [ CoordAction.inputSignal,
        CoordAction.sendFrag Fragment.stop,
        CoordAction.sendSess Session.stop,
        CoordAction.sendSmpl FinalSample.stop,
        CoordAction.sendRslt StoredResult.stop ] := by
  cases sigs with
  | nil => exact absurd rfl h
  | cons s r => rfl

/-- Witness for C1 at the concrete trigger stream with one trigger. -/
theorem shutdown_signal_order_witness :
    (([()] : List Unit) ≠ []) ∧
    handlerLoop [()] =
      [ CoordAction.inputSignal,
        CoordAction.sendFrag Fragment.stop,
        CoordAction.sendSess Session.stop,
        CoordAction.sendSmpl FinalSample.stop,
        CoordAction.sendRslt StoredResult.stop ] :=
  ⟨by decide, shutdown_signal_order [()] (by decide)⟩

/-- C2: the termination trigger is acted on at most once per run: the
coordinator loop of src/main.rs lines 74-85 breaks after the first trigger,
so any further triggers change nothing, and each channel carries at most one
coordinator-injected Stop marker, whatever the trigger stream; the loop body
is total, so no trigger causes a panic. -/
theorem shutdown_idempotent (rest sigs : List Unit) :
    handlerLoop (() :: rest) = handlerLoop [()]
    ∧ (handlerLoop sigs).count CoordAction.inputSignal ≤ 1
    ∧ (handlerLoop sigs).count (CoordAction.sendFrag Fragment.stop) ≤ 1
    ∧ (handlerLoop sigs).count (CoordAction.sendSess Session.stop) ≤ 1
    ∧ (handlerLoop sigs).count (CoordAction.sendSmpl FinalSample.stop) ≤ 1
    ∧ (handlerLoop sigs).count (CoordAction.sendRslt StoredResult.stop) ≤ 1 := by
  refine ⟨rfl, ?_⟩
  cases sigs with
  | nil => decide
  | cons s r =>
    simp only [handlerLoop]
    decide

/-- C3: the pipeline of src/main.rs lines 51-70 is wired strictly linearly:
each adjacent stage pair Input to Collector, Collector to Processor,
Processor to Inference, Inference to Output is connected by exactly one
bounded channel; each worker stage downstream of Input consumes exactly one
inter-stage channel; the coordinator holds a sender for every inter-stage
channel and the out-of-band oneshot link to the input stage. -/
theorem pipeline_wiring_linear :
    (mainChannels.countP
      (fun ch => decide (ch.producer = Stage.input ∧ ch.consumer = Stage.collector)) = 1)
    ∧ (mainChannels.countP
      (fun ch => decide (ch.producer = Stage.collector ∧ ch.consumer = Stage.processor)) = 1)
    ∧ (mainChannels.countP
      (fun ch => decide (ch.producer = Stage.processor ∧ ch.consumer = Stage.inference)) = 1)
    ∧ (mainChannels.countP
      (fun ch => decide (ch.producer = Stage.inference ∧ ch.consumer = Stage.output)) = 1)
    ∧ (mainChannels.countP (fun ch => decide (ch.consumer = Stage.collector)) = 1)
    ∧ (mainChannels.countP (fun ch => decide (ch.consumer = Stage.processor)) = 1)
    ∧ (mainChannels.countP (fun ch => decide (ch.consumer = Stage.inference)) = 1)
    ∧ (mainChannels.countP (fun ch => decide (ch.consumer = Stage.output)) = 1)
    ∧ mainChannels.all (fun ch => ch.bounded && ch.coordinatorHoldsSender) = true
    ∧ mainOneshot.sender = Stage.coordinator
    ∧ mainOneshot.receiver = Stage.input := by
  decide

/-- C4: for every stream of fragments of one session key consumed by the
collector, every session it emits carries its folded payload segments with
contiguous, hence strictly increasing and gap-free, sequence markers, with
no segment duplicated, and every emitted segment is one of the consumed
fragments. Moreover the valid marking is constrained: when the stream is a
single session transmission (one start-boundary fragment of least marker,
then continuations, then one end-boundary fragment), a session emitted as
valid must cover the sequence marker of every consumed fragment — so a
stream whose payload sequence cannot be made gap-free can only be emitted
marked incomplete, never as valid. -/
theorem collector_session_order (w : Nat) (fs : List FragData) (sess : SessData)
    (hm : sess ∈ runKey w none fs) :
    List.Chain' (fun x y => y = x + 1) (sess.segs.map FragData.seq)
    ∧ List.Chain' (· < ·) (sess.segs.map FragData.seq)
    ∧ sess.segs.Nodup
    ∧ (∀ g ∈ sess.segs, g ∈ fs)
    ∧ (SingleSession fs → sess.valid = true →
        ∀ f ∈ fs, ∃ g ∈ sess.segs, g.seq = f.seq) := by
  have h := runKey_emit w fs none (fun a ha => by cases ha) sess hm
  obtain ⟨⟨k, n, hk⟩, hsub⟩ := h
  have hchain : List.Chain' (fun x y => y = x + 1) (sess.segs.map FragData.seq) := by
    rw [hk]
    exact chain_succ_range' n k
  have hlt : List.Chain' (· < ·) (sess.segs.map FragData.seq) :=
    hchain.imp (fun x y hxy => by omega)
  have hnd : (sess.segs.map FragData.seq).Nodup := by
    rw [hk]
    exact List.nodup_range' k n
  refine ⟨hchain, hlt, List.Nodup.of_map _ hnd, ?_, ?_⟩
  · intro g hg
    rcases hsub g hg with h1 | h2
    · exact h1
    · simp [asmContents] at h2
  · intro hss hv f hf
    obtain ⟨f0, mid, fl, hfs, hb0, hbfl, hcont, hmin⟩ := hss
    subst hfs
    simp only [runKey, stepMsg_start w f0 hb0, List.nil_append] at hm
    have hge0 : ∀ f2 ∈ mid, (newAsm f0).first ≤ f2.seq := by
      intro f2 h2
      exact hmin f2 (List.mem_cons_of_mem _ (List.mem_append.2 (Or.inl h2)))
    have hgefl : (newAsm f0).first ≤ fl.seq :=
      hmin fl (List.mem_cons_of_mem _ (List.mem_append.2 (Or.inr (List.mem_singleton.2 rfl))))
    have hxin : f.seq ∈ coverList (newAsm f0)
        ∨ f.seq ∈ mid.map FragData.seq ∨ f.seq = fl.seq := by
      rcases List.mem_cons.1 hf with h0 | h1
      · rw [h0]
        exact Or.inl (by simp [coverList, newAsm])
      · rcases List.mem_append.1 h1 with h2 | h2
        · exact Or.inr (Or.inl (List.mem_map.2 ⟨f, h2, rfl⟩))
        · rcases List.mem_singleton.1 h2 with rfl
          exact Or.inr (Or.inr rfl)
    have hkey := runKey_valid_cover w fl hbfl mid (newAsm f0) (newAsm_inv f0)
      hcont hge0 hgefl sess hm hv f.seq hxin
    rcases List.mem_map.1 hkey with ⟨g, hg, hgeq⟩
    exact ⟨g, hg, hgeq⟩

/-- Witness for C4 at a concrete three-fragment session. -/
theorem collector_session_order_witness :
    (SessData.mk
        [ FragData.mk 0 Boundary.start 10,
          FragData.mk 1 Boundary.cont 11,
          FragData.mk 2 Boundary.fin 12 ] true)
      ∈ runKey 0 none
        [ FragData.mk 0 Boundary.start 10,
          FragData.mk 1 Boundary.cont 11,
          FragData.mk 2 Boundary.fin 12 ]
    ∧ (List.Chain' (fun x y => y = x + 1)
        ((SessData.mk
          [ FragData.mk 0 Boundary.start 10,
            FragData.mk 1 Boundary.cont 11,
            FragData.mk 2 Boundary.fin 12 ] true).segs.map FragData.seq)
      ∧ List.Chain' (· < ·)
        ((SessData.mk
          [ FragData.mk 0 Boundary.start 10,
            FragData.mk 1 Boundary.cont 11,
            FragData.mk 2 Boundary.fin 12 ] true).segs.map FragData.seq)
      ∧ (SessData.mk
          [ FragData.mk 0 Boundary.start 10,
            FragData.mk 1 Boundary.cont 11,
            FragData.mk 2 Boundary.fin 12 ] true).segs.Nodup
      ∧ (∀ g ∈ (SessData.mk
          [ FragData.mk 0 Boundary.start 10,
            FragData.mk 1 Boundary.cont 11,
            FragData.mk 2 Boundary.fin 12 ] true).segs,
          g ∈ [ FragData.mk 0 Boundary.start 10,
                FragData.mk 1 Boundary.cont 11,
                FragData.mk 2 Boundary.fin 12 ])
      ∧ (SingleSession
            [ FragData.mk 0 Boundary.start 10,
              FragData.mk 1 Boundary.cont 11,
              FragData.mk 2 Boundary.fin 12 ] →
          (SessData.mk
            [ FragData.mk 0 Boundary.start 10,
              FragData.mk 1 Boundary.cont 11,
              FragData.mk 2 Boundary.fin 12 ] true).valid = true →
          ∀ f ∈ [ FragData.mk 0 Boundary.start 10,
                  FragData.mk 1 Boundary.cont 11,
                  FragData.mk 2 Boundary.fin 12 ],
            ∃ g ∈ (SessData.mk
              [ FragData.mk 0 Boundary.start 10,
                FragData.mk 1 Boundary.cont 11,
                FragData.mk 2 Boundary.fin 12 ] true).segs,
              g.seq = f.seq)) :=
  ⟨by decide,
   collector_session_order 0
     [ FragData.mk 0 Boundary.start 10,
       FragData.mk 1 Boundary.cont 11,
       FragData.mk 2 Boundary.fin 12 ]
     (SessData.mk
       [ FragData.mk 0 Boundary.start 10,
         FragData.mk 1 Boundary.cont 11,
         FragData.mk 2 Boundary.fin 12 ] true)
     (by decide)⟩

/-- C5 counterexample: the claim that the channel capacities are supplied by
the configuration fails on the code: for the concrete configuration whose
configured capacity is 50, the capacity passed to channel creation in
src/main.rs lines 57-63 is the hard-coded literal 100, not 50. -/
theorem channel_capacity_claim_false : ¬ capacityFromConfig := by
  intro h
  exact absurd (h (ConfigCore.mk [] 50) ChanId.frag) (by decide)

/-- C5 amended: the four inter-stage channels are created with the fixed
capacity 100 written in src/main.rs lines 57-63; the configuration instance
is not consulted for any of them. -/
theorem channel_capacity_fixed (cfg : ConfigCore) (id : ChanId) :
    mainChanCapacity cfg id = 100
    ∧ mainChannels.all (fun ch => ch.capacity == 100) = true :=
  ⟨rfl, by decide⟩

/-- C6: every inter-stage message type has exactly two variant shapes, one
data variant carrying a payload and one Stop variant carrying none, and Stop
markers enter the channels only through the shutdown protocol: the collector
data path emits a Session Stop marker only if a Fragment Stop marker was
consumed, and every action sequence of the coordinator is either empty or
exactly the shutdown Stop cascade. -/
theorem message_two_shapes (m1 : Fragment) (m2 : Session) (m3 : FinalSample)
    (m4 : StoredResult) (w : Nat) (st : Option Asm) (msgs : List Fragment)
    (sigs : List Unit) :
    ((∃ p, m1 = Fragment.data p) ∨ m1 = Fragment.stop)
    ∧ ((∃ p, m2 = Session.data p) ∨ m2 = Session.stop)
    ∧ ((∃ p, m3 = FinalSample.data p) ∨ m3 = FinalSample.stop)
    ∧ ((∃ p, m4 = StoredResult.data p) ∨ m4 = StoredResult.stop)
    ∧ (Fragment.stop ∈ msgs ∨ Session.stop ∉ collectorRun w st msgs)
    ∧ (handlerLoop sigs = [] ∨ handlerLoop sigs = handlerLoop [()]) := by
  refine ⟨?_, ?_, ?_, ?_, collectorRun_stop_only_from_stop w st msgs, ?_⟩
  · cases m1 with
    | data p => exact Or.inl ⟨p, rfl⟩
    | stop => exact Or.inr rfl
  · cases m2 with
    | data p => exact Or.inl ⟨p, rfl⟩
    | stop => exact Or.inr rfl
  · cases m3 with
    | data p => exact Or.inl ⟨p, rfl⟩
    | stop => exact Or.inr rfl
  · cases m4 with
    | data p => exact Or.inl ⟨p, rfl⟩
    | stop => exact Or.inr rfl
  · cases sigs with
    | nil => exact Or.inl rfl
    | cons s r => exact Or.inr rfl

/-- C7 counterexample: the claim that each stage observes an immutable
configuration snapshot fails on the code: Config::peers reads through the
shared RwLock cell (src/config.rs lines 20-22 and 45-48), so after a write
of a core holding one peer over a core holding none, the same stage handle
observes the changed peer list. -/
theorem config_snapshot_claim_false : ¬ snapshotSemantics := by
  intro h
  exact absurd
    (h (ConfigCore.mk [] 0)
       (ConfigCore.mk [Endpoint.mk "peer1" 4000] 0))
    (by decide)

/-- C7 amended: configuration is delivered to the five stages as clones of
one shared Arc handle to a single RwLock-protected configuration object
(src/main.rs lines 66-70), so all stages alias the same state, and a write
through the shared cell is what every subsequent peers read returns: shared
mutable state behind an accessor, not per-stage immutable snapshots. -/
theorem config_shared_mutable_delivery (h : Nat) (c new : ConfigCore) :
    mainStageHandles h = [h, h, h, h, h]
    ∧ configPeersOf (writeCore c new) = new.peers :=
  ⟨rfl, rfl⟩

/-- C8: Config::peers (src/config.rs lines 45-48) acquires only a read lock,
leaves the stored configuration state unchanged, and returns a clone of the
stored endpoint list, so any later mutation the caller applies to the
returned list leaves the stored list untouched. -/
theorem peers_read_clone_frame (m : PeersCallMem)
    (f : List Endpoint → List Endpoint) :
    (peersCall m).coreList = m.coreList
    ∧ (peersCall m).callerList = some m.coreList
    ∧ (callerMutate f (peersCall m)).coreList = m.coreList
    ∧ LockOp.write ∉ peersLockOps :=
  ⟨rfl, rfl, rfl, by decide⟩

/-- C9: for every configuration state, Config::log_lvl_console returns
LevelFilter::Info and Config::log_lvl_file returns LevelFilter::Debug
(src/config.rs lines 50-60); the results are identical across any two
configuration states, so the configured values are never consulted. -/
theorem log_levels_constant (c c2 : ConfigCore) :
    log_lvl_console c = LevelFilter.info
    ∧ log_lvl_file c = LevelFilter.debug
    ∧ log_lvl_console c = log_lvl_console c2
    ∧ log_lvl_file c = log_lvl_file c2 :=
  ⟨rfl, rfl, rfl, rfl⟩

/-- C10: Config::new (src/config.rs lines 31-42 with init_args lines 64-75)
uses the file path banshee.ini when no --config argument is supplied, and
uses exactly the supplied value when --config is given. -/
theorem config_pathname_selection (v : String) :
    configPathname none = "banshee.ini" ∧ configPathname (some v) = v :=
  ⟨rfl, rfl⟩

end Ssp
